import Mathlib

/-!
Verification of the pure in-process tree engine of `GtreeService`
(`src/gtree/src/core/services/gtree-service.ts`, the scanner/formatter
variant): gitignore-style pattern matching, recursive directory scanning
with depth limiting and hidden-file control, deterministic sorting,
box-drawing rendering, and `tree`-style argument parsing.

JavaScript string operations are modelled structurally over `List Char`
so that every definition evaluates on concrete inputs.
-/

namespace Gtree

/-- JS `s.startsWith(p)` viewed on character lists: `listStarts s p` is
true when `p` is an initial run of `s`. -/
def listStarts : List Char → List Char → Bool
  | _, [] => true
  | [], _ :: _ => false
  | c :: cs, d :: ds => c == d && listStarts cs ds

/-- JS `s.startsWith(p)`. -/
def strStarts (s p : String) : Bool := listStarts s.data p.data

/-- JS `s.endsWith(p)`. -/
def strEnds (s p : String) : Bool := listStarts s.data.reverse p.data.reverse

/-- Substring test: `listInfix s p` is true when `p` occurs contiguously somewhere in `s`. -/
def listInfix : List Char → List Char → Bool
  | [], p => p.isEmpty
  | c :: cs, p => listStarts (c :: cs) p || listInfix cs p

/-- JS `s.includes(p)` (substring containment). -/
def strHas (s p : String) : Bool := listInfix s.data p.data

/-- Whether the character `c` occurs in the string `s`. -/
def strHasChar (s : String) (c : Char) : Bool := s.data.contains c

/-- JS `s.split(sep)` for a one-character separator, on character lists:
a separator opens a new (initially empty) segment, any other character is
prepended to the first segment of the remainder. -/
def splitOnCharList (c : Char) : List Char → List (List Char)
  | [] => [[]]
  | x :: xs =>
    let rest := splitOnCharList c xs
    if x == c then [] :: rest
    else (x :: rest.headD []) :: rest.tail

/-- JS `path.split('/')`. -/
def splitSlash (s : String) : List String :=
  (splitOnCharList '/' s.data).map String.mk

/-- JS `s.slice(0, -n)`: drop the last `n` characters. -/
def strDropEnd (s : String) (n : Nat) : String :=
  String.mk (s.data.take (s.data.length - n))

/-- JS `s.substring(n)`: drop the first `n` characters. -/
def strDropStart (s : String) (n : Nat) : String :=
  String.mk (s.data.drop n)

/-- JS `s.trim()` (whitespace at both ends removed). -/
def strTrim (s : String) : String :=
  String.mk (((s.data.dropWhile Char.isWhitespace).reverse.dropWhile Char.isWhitespace).reverse)

/-- Concatenation of a list of strings in order. -/
def strConcat : List String → String
  | [] => ""
  | s :: rest => s ++ strConcat rest

/-- Path normalization `filePath.replace(/\\/g, '/')` from `createIgnoreInstance.ignores`. -/
def normalizePath (s : String) : String :=
  String.mk (s.data.map (fun c => if c == '\\' then '/' else c))

/-- The `defaultIgnores` list of `createIgnoreInstance`. -/
def defaultIgnores : List String := [".git", ".DS_Store", "node_modules"]

/-- The `.gitignore` line processing of `createIgnoreInstance`:
split on newlines, trim each line, keep non-empty lines that do not
start with `#`. -/
def parseGitignore (content : String) : List String :=
  (((splitOnCharList '\n' content.data).map String.mk).map strTrim).filter
    (fun line => line != "" && !(strStarts line "#"))

/-- The per-pattern test inside `createIgnoreInstance.ignores`
(`allIgnores.some (pattern => ...)`), applied to the already-normalized
path. -/
def matchesPattern (normalizedPath pattern : String) : Bool :=
  if strEnds pattern "/**" then
    let dir := strDropEnd pattern 3
    strStarts normalizedPath (dir ++ "/") || normalizedPath == dir
  else if strHas pattern "/" then
    strHas normalizedPath pattern
  else
    (splitSlash normalizedPath).contains pattern

/-- The predicate `ig.ignores(filePath)` from `createIgnoreInstance`, for a given ordered
pattern list. -/
def ignores (patterns : List String) (filePath : String) : Bool :=
  let normalizedPath := normalizePath filePath
  patterns.any (fun pattern => matchesPattern normalizedPath pattern)

/-- The full pattern list of `createIgnoreInstance`: defaults first, then
the parsed `.gitignore` lines (`none` models a missing or unreadable
`.gitignore`). -/
def createIgnorePatterns (gitignore : Option String) : List String :=
  defaultIgnores ++ (match gitignore with | none => [] | some c => parseGitignore c)

/-- A filesystem entry as the scanner observes it: a plain file, or a
directory with its entry list; `readable = false` models a directory on
which `readdirSync` throws (the scanner's `catch` then yields no items). -/
inductive FSEntry where
  | file (name : String)
  | dir (name : String) (readable : Bool) (entries : List FSEntry)

/-- The `entry.name` of a directory entry. -/
def FSEntry.name : FSEntry → String
  | .file n => n
  | .dir n _ _ => n

/-- The `entry.isDirectory()` test of a directory entry. -/
def FSEntry.isDir : FSEntry → Bool
  | .file _ => false
  | .dir _ _ _ => true

/-- The `GtreeOptions` interface. `maxDepth` is an `Int` because
`parseInt` can produce negative values. -/
structure GtreeOptions where
  maxDepth : Option Int := none
  showHidden : Bool := false
  excludeGit : Bool := true
  baseDirectory : Option String := none

/-- The `FileNode` interface: `children` is present (`some`) exactly for
directory nodes, mirroring the optional `children?: FileNode[]` field. -/
inductive FileNode where
  | mk (name : String) (path : String) (isDirectory : Bool)
       (children : Option (List FileNode)) (level : Nat)

def FileNode.name : FileNode → String
  | .mk n _ _ _ _ => n

def FileNode.path : FileNode → String
  | .mk _ p _ _ _ => p

def FileNode.isDirectory : FileNode → Bool
  | .mk _ _ d _ _ => d

def FileNode.children : FileNode → Option (List FileNode)
  | .mk _ _ _ c _ => c

def FileNode.level : FileNode → Nat
  | .mk _ _ _ _ l => l

/-- The sort comparator of `scanDirectory`: directories first, then
files, ties decided by `a.name.localeCompare(b.name)`; `lc` stands for
the locale-aware comparison. -/
def cmpNodes (lc : String → String → Int) (a b : FileNode) : Int :=
  if a.isDirectory && !b.isDirectory then -1
  else if !a.isDirectory && b.isDirectory then 1
  else lc a.name b.name

/-- Stable insertion of a node into an already sorted list, placing `a`
before the first element it does not compare after. -/
def insertNode (lc : String → String → Int) (a : FileNode) :
    List FileNode → List FileNode
  | [] => [a]
  | b :: bs => if cmpNodes lc a b ≤ 0 then a :: b :: bs else b :: insertNode lc a bs

/-- The stable sort `items.sort(...)` of `scanDirectory`, modelled as
insertion sort (JS `Array.prototype.sort` is stable; with a consistent
comparator the sorted result is unique). -/
def sortNodes (lc : String → String → Int) : List FileNode → List FileNode
  | [] => []
  | a :: as => insertNode lc a (sortNodes lc as)

/-- The relative path `relative(baseDirectory, join(dirPath, entry.name))`: the scanner
always starts at `baseDirectory`, so the relative path is the running
path from the root extended by the entry name. -/
def joinRel (pre name : String) : String :=
  if pre = "" then name else pre ++ "/" ++ name

/-- The guard `options.maxDepth !== undefined && currentLevel >= options.maxDepth`. -/
def depthExceeded (opts : GtreeOptions) (lvl : Nat) : Bool :=
  match opts.maxDepth with
  | none => false
  | some d => decide ((lvl : Int) ≥ d)

/-- The entry loop of `GtreeService.scanDirectory`: hidden-name skip,
ignore skip, node construction, recursion into directories (depth check,
unreadable directories yield no items, children sorted). -/
def scanItems (lc : String → String → Int) (opts : GtreeOptions) (ig : List String) :
    List FSEntry → String → Nat → List FileNode
  | [], _, _ => []
  | e :: rest, pre, lvl =>
    let rp := joinRel pre e.name
    if !opts.showHidden && strStarts e.name "." then
      scanItems lc opts ig rest pre lvl
    else if ignores ig rp then
      scanItems lc opts ig rest pre lvl
    else
      match e with
      | .file n =>
          FileNode.mk n rp false none lvl :: scanItems lc opts ig rest pre lvl
      | .dir n readable es =>
          let childItems :=
            if depthExceeded opts (lvl + 1) then []
            else if readable then scanItems lc opts ig es rp (lvl + 1) else []
          FileNode.mk n rp true (some (sortNodes lc childItems)) lvl
            :: scanItems lc opts ig rest pre lvl

/-- The function `GtreeService.scanDirectory`: empty on exceeded depth, empty items on
an unreadable directory (`contents = none`), otherwise the processed and
sorted entry list. -/
def scanDirectory (lc : String → String → Int) (opts : GtreeOptions) (ig : List String)
    (contents : Option (List FSEntry)) (pre : String) (lvl : Nat) : List FileNode :=
  if depthExceeded opts lvl then []
  else
    sortNodes lc (match contents with
      | none => []
      | some es => scanItems lc opts ig es pre lvl)

/-- All nodes of a node forest, each node followed by its descendants. -/
def collectList : List FileNode → List FileNode
  | [] => []
  | FileNode.mk n p d ch lv :: rest =>
    FileNode.mk n p d ch lv ::
      ((match ch with | some cs => collectList cs | none => []) ++ collectList rest)

/-- The indentation loop of `formatTree`: four spaces under a last
sibling, a vertical bar and three spaces otherwise, in ancestor order. -/
def treeIndent : List Bool → String
  | [] => ""
  | b :: flags => (if b then "    " else "│   ") ++ treeIndent flags

/-- The renderer `GtreeService.formatTree`: one line per node with the box-drawing
lead built from the ancestor last-sibling flags, recursing into non-empty
children. -/
def formatTree : List FileNode → List Bool → String
  | [], _ => ""
  | FileNode.mk n _ _ ch _ :: rest, flags =>
    let isLastNode := rest.isEmpty
    let line := treeIndent flags ++ (if isLastNode then "└── " else "├── ") ++ n ++ "\n"
    let childPart :=
      match ch with
      | some cs => if cs.length > 0 then formatTree cs (flags ++ [isLastNode]) else ""
      | none => ""
    line ++ childPart ++ formatTree rest flags

/-- The resolved target of a `generateTree` call: missing, existing but
not a directory, or a directory with its entries and the content of
`<base>/.gitignore` when that file exists and is readable. -/
inductive FSTarget where
  | missing
  | nondir
  | dir (readable : Bool) (entries : List FSEntry) (gitignore : Option String)

/-- The entry point `GtreeService.generateTree`: precondition checks with their exact
messages, ignore-set construction, scan from the resolved root (so the
relative-path accumulator starts empty, matching
`options.baseDirectory = absolutePath`), then the root name line plus
the formatted forest. `rootName` stands for `basename(absolutePath)`. -/
def generateTree (lc : String → String → Int) (targetPath rootName : String)
    (target : FSTarget) (options : GtreeOptions) : Except String String :=
  match target with
  | .missing => .error ("Path does not exist: " ++ targetPath)
  | .nondir => .error ("Path is not a directory: " ++ targetPath)
  | .dir readable entries gitignore =>
      let ig := createIgnorePatterns gitignore
      let nodes := scanDirectory lc options ig
        (if readable then some entries else none) "" 0
      .ok (rootName ++ "\n" ++ (if nodes.length > 0 then formatTree nodes [] else ""))

/-- The children of a node as a forest (empty for a file node). -/
def childForest (n : FileNode) : List FileNode :=
  match n.children with
  | some cs => cs
  | none => []

/-- A realizable filesystem name: non-empty and without the path
separator or backslash (neither can occur in a directory entry name). -/
def validName (s : String) : Bool :=
  s != "" && !(strHasChar s '/') && !(strHasChar s '\\')

/-- All names in a forest of filesystem entries are realizable. -/
def validTree : List FSEntry → Bool
  | [] => true
  | .file n :: rest => validName n && validTree rest
  | .dir n _ es :: rest => validName n && validTree es && validTree rest

/-- Join path segments with `/`. -/
def joinSegs : List String → String
  | [] => ""
  | [s] => s
  | s :: rest => s ++ "/" ++ joinSegs rest

/-- The sub-entries of an entry (empty for a file). -/
def FSEntry.entries : FSEntry → List FSEntry
  | .file _ => []
  | .dir _ _ es => es

/-- Digit recognition for `parseInt` at the given radix. -/
def isDigitBase (base : Nat) (c : Char) : Bool :=
  if base == 16 then
    c.isDigit || (decide ('a' ≤ c) && decide (c ≤ 'f')) ||
      (decide ('A' ≤ c) && decide (c ≤ 'F'))
  else c.isDigit

/-- Numeric value of a digit accepted by `isDigitBase`. -/
def digitValBase (c : Char) : Nat :=
  if c.isDigit then c.toNat - '0'.toNat
  else if decide ('a' ≤ c) && decide (c ≤ 'f') then c.toNat - 'a'.toNat + 10
  else c.toNat - 'A'.toNat + 10

/-- Accumulate a digit run into a number. -/
def digitsToNat (base : Nat) (ds : List Char) : Nat :=
  ds.foldl (fun acc c => acc * base + digitValBase c) 0

/-- The unsigned part of JS `parseInt(s)` with no radix argument: an
optional `0x`/`0X` prefix selects base 16, then the longest run of
digits; no digits means `NaN`, modelled as `none`. -/
def parseIntCore (cs : List Char) : Option Int :=
  let bc : Nat × List Char :=
    match cs with
    | '0' :: 'x' :: r => (16, r)
    | '0' :: 'X' :: r => (16, r)
    | _ => (10, cs)
  let ds := bc.2.takeWhile (isDigitBase bc.1)
  if ds.isEmpty then none else some ((digitsToNat bc.1 ds : Nat) : Int)

/-- JS `parseInt(s)` (radix argument omitted): leading whitespace
skipped, then an optional sign, then the unsigned part. -/
def parseIntJS (s : String) : Option Int :=
  let cs := s.data.dropWhile Char.isWhitespace
  match cs with
  | '-' :: r => (parseIntCore r).map (fun v => -v)
  | '+' :: r => parseIntCore r
  | _ => parseIntCore cs

/-- The result of `parseTreeArgs`: the target path and the option set. -/
structure ParseResult where
  path : String
  options : GtreeOptions

/-- The `for` loop of `GtreeService.parseTreeArgs`, as a left-to-right
walk: `-L` with a parsable lookahead consumes both tokens; a
non-parsable or missing lookahead is left for the next iteration;
`-a`/`--all` set `showHidden`; an attached `-L<n>` parses its suffix;
a non-flag token becomes the path; any other flag is skipped. -/
def parseTreeArgsLoop : List String → GtreeOptions → String → ParseResult
  | [], opts, tp => ⟨tp, opts⟩
  | arg :: rest, opts, tp =>
    if arg == "-L" then
      match rest with
      | next :: rest2 =>
        match parseIntJS next with
        | some d => parseTreeArgsLoop rest2 { opts with maxDepth := some d } tp
        | none => parseTreeArgsLoop (next :: rest2) opts tp
      | [] => parseTreeArgsLoop [] opts tp
    else if arg == "-a" || arg == "--all" then
      parseTreeArgsLoop rest { opts with showHidden := true } tp
    else if strStarts arg "-L" then
      match parseIntJS (strDropStart arg 2) with
      | some d => parseTreeArgsLoop rest { opts with maxDepth := some d } tp
      | none => parseTreeArgsLoop rest opts tp
    else if !(strStarts arg "-") then
      parseTreeArgsLoop rest opts arg
    else
      parseTreeArgsLoop rest opts tp

/-- The translator `GtreeService.parseTreeArgs`: defaults `showHidden = false`,
`excludeGit = true`, path `"."`. -/
def parseTreeArgs (args : List String) : ParseResult :=
  parseTreeArgsLoop args { showHidden := false, excludeGit := true } "."

/-- The renderer's line lead as the specification words it: over the
ancestor levels, four spaces if that ancestor was itself a last sibling,
else a vertical bar and three spaces. -/
def claimIndent (flags : List Bool) : String :=
  strConcat (flags.map (fun b => if b then "    " else "│   "))

/-- The rendered lines as the specification words them: one line per
node in depth-first order, each line being the ancestor lead, then
`"└── "` for a last sibling and `"├── "` otherwise, then the node name
and a newline, descending into the node's children with the flag list
extended by this node's last-sibling flag. -/
def specLines : List FileNode → List Bool → List String
  | [], _ => []
  | FileNode.mk nm _ _ ch _ :: rest, flags =>
    (claimIndent flags ++ (if rest.isEmpty then "└── " else "├── ") ++ nm ++ "\n")
      :: ((match ch with
           | some cs => specLines cs (flags ++ [rest.isEmpty])
           | none => []) ++ specLines rest flags)

/-- A comparison usable in witnesses for the abstract `localeCompare`. -/
def lc0 : String → String → Int := fun _ _ => 0

/-- Scenario A fixture: `file1.txt`, `file2.txt`, `subdir/file3.txt`. -/
def demoA : List FSEntry :=
  [.file "file1.txt", .file "file2.txt", .dir "subdir" true [.file "file3.txt"]]

/-- Scenario B fixture: a visible file, an ignored file, an ignored
directory with one entry inside. -/
def demoB : List FSEntry :=
  [.file "visible_file.txt", .file "ignored_file.txt",
   .dir "ignored_dir" true [.file "secret.txt"]]

/-- Scenario B `.gitignore` content. -/
def gitignoreB : Option String := some "ignored_file.txt\nignored_dir/"

/-- Scenario C fixture: three nested levels. -/
def demoC : List FSEntry :=
  [.dir "a" true [.dir "b" true [.file "c"]]]

/-- The three-case matching rule as the specification words it: a pattern
ending in `/**` matches when the path equals the pattern minus `/**` or
starts with that prefix followed by `/`; a pattern containing `/` (not of
the previous form) matches when the path contains it as a substring; any
other pattern matches when some `/`-delimited segment of the path equals
it exactly. -/
def claimMatches (pattern path : String) : Bool :=
  if strEnds pattern "/**" then
    path == strDropEnd pattern 3 || strStarts path (strDropEnd pattern 3 ++ "/")
  else if strHas pattern "/" then
    strHas path pattern
  else
    (splitSlash path).any (fun seg => seg == pattern)

/-- Hidden-name fixture: a hidden file, a visible directory holding a
hidden file, and a visible file. -/
def demoH : List FSEntry :=
  [.file ".hidden", .dir "sub" true [.file ".deep"], .file "ok.txt"]

/-- Default-exclusion fixture: `.git`, `.DS_Store`, `node_modules` and a
visible file. -/
def demoG : List FSEntry :=
  [.dir ".git" true [.file "HEAD"], .file ".DS_Store",
   .dir "node_modules" true [.file "x"], .file "ok.txt"]

theorem collectList_cons (n : FileNode) (rest : List FileNode) :
    collectList (n :: rest) = n :: (collectList (childForest n) ++ collectList rest) := by
  obtain ⟨nm, p, d, ch, lv⟩ := n
  cases ch <;> simp [collectList, childForest, FileNode.children]

theorem mem_collectList_iff {x : FileNode} {l : List FileNode} :
    x ∈ collectList l ↔ ∃ n ∈ l, x = n ∨ x ∈ collectList (childForest n) := by
  induction l with
  | nil => simp [collectList]
  | cons n rest ih =>
    rw [collectList_cons]
    simp only [List.mem_cons, List.mem_append, ih]
    constructor
    · rintro (h | h | ⟨m, hm, hx⟩)
      · exact ⟨n, Or.inl rfl, Or.inl h⟩
      · exact ⟨n, Or.inl rfl, Or.inr h⟩
      · exact ⟨m, Or.inr hm, hx⟩
    · rintro ⟨m, hm | hm, hx⟩
      · subst hm
        rcases hx with h | h
        · exact Or.inl h
        · exact Or.inr (Or.inl h)
      · exact Or.inr (Or.inr ⟨m, hm, hx⟩)

theorem mem_insertNode {lc : String → String → Int} {a x : FileNode}
    {l : List FileNode} : x ∈ insertNode lc a l ↔ x = a ∨ x ∈ l := by
  induction l with
  | nil => simp [insertNode]
  | cons b bs ih =>
    unfold insertNode
    by_cases h : cmpNodes lc a b ≤ 0
    · simp [h]
    · simp [h, ih]
      tauto

theorem mem_sortNodes {lc : String → String → Int} {x : FileNode}
    {l : List FileNode} : x ∈ sortNodes lc l ↔ x ∈ l := by
  induction l with
  | nil => simp [sortNodes]
  | cons a as ih =>
    unfold sortNodes
    rw [mem_insertNode, ih]
    simp

theorem mem_collect_sortNodes {lc : String → String → Int} {x : FileNode}
    {l : List FileNode} :
    x ∈ collectList (sortNodes lc l) ↔ x ∈ collectList l := by
  rw [mem_collectList_iff, mem_collectList_iff]
  constructor
  · rintro ⟨n, hn, hx⟩; exact ⟨n, mem_sortNodes.mp hn, hx⟩
  · rintro ⟨n, hn, hx⟩; exact ⟨n, mem_sortNodes.mpr hn, hx⟩

theorem cmpNodes_total {lc : String → String → Int}
    (hlc : ∀ a b, lc a b ≤ 0 ∨ lc b a ≤ 0) (a b : FileNode) :
    cmpNodes lc a b ≤ 0 ∨ cmpNodes lc b a ≤ 0 := by
  cases ha : a.isDirectory <;> cases hb : b.isDirectory <;>
    simp [cmpNodes, ha, hb] <;> first | exact hlc _ _ | omega

theorem cmpNodes_trans {lc : String → String → Int}
    (hlc : ∀ a b c, lc a b ≤ 0 → lc b c ≤ 0 → lc a c ≤ 0) (a b c : FileNode)
    (h1 : cmpNodes lc a b ≤ 0) (h2 : cmpNodes lc b c ≤ 0) :
    cmpNodes lc a c ≤ 0 := by
  cases ha : a.isDirectory <;> cases hb : b.isDirectory <;>
    cases hc : c.isDirectory <;>
    simp_all [cmpNodes] <;> first | exact hlc _ _ _ h1 h2 | omega

theorem pairwise_insertNode {lc : String → String → Int}
    (htot : ∀ a b, lc a b ≤ 0 ∨ lc b a ≤ 0)
    (htrans : ∀ a b c, lc a b ≤ 0 → lc b c ≤ 0 → lc a c ≤ 0)
    (a : FileNode) {l : List FileNode}
    (h : l.Pairwise (fun x y => cmpNodes lc x y ≤ 0)) :
    (insertNode lc a l).Pairwise (fun x y => cmpNodes lc x y ≤ 0) := by
  induction l with
  | nil => simp [insertNode]
  | cons b bs ih =>
    unfold insertNode
    rcases List.pairwise_cons.mp h with ⟨hb, hbs⟩
    by_cases hc : cmpNodes lc a b ≤ 0
    · simp only [hc, if_pos]
      refine List.pairwise_cons.mpr ⟨?_, h⟩
      intro y hy
      rcases List.mem_cons.mp hy with rfl | hy
      · exact hc
      · exact cmpNodes_trans htrans a b y hc (hb y hy)
    · simp only [hc, if_neg, if_false]
      refine List.pairwise_cons.mpr ⟨?_, ih hbs⟩
      intro y hy
      rcases mem_insertNode.mp hy with rfl | hy
      · rcases cmpNodes_total htot y b with h' | h'
        · exact absurd h' hc
        · exact h'
      · exact hb y hy

theorem pairwise_sortNodes {lc : String → String → Int}
    (htot : ∀ a b, lc a b ≤ 0 ∨ lc b a ≤ 0)
    (htrans : ∀ a b c, lc a b ≤ 0 → lc b c ≤ 0 → lc a c ≤ 0)
    (l : List FileNode) :
    (sortNodes lc l).Pairwise (fun x y => cmpNodes lc x y ≤ 0) := by
  induction l with
  | nil => simp [sortNodes]
  | cons a as ih => exact pairwise_insertNode htot htrans a ih

theorem validName_ne {s : String} (h : validName s = true) : s ≠ "" := by
  simp [validName] at h
  exact h.1.1

theorem validName_slash {s : String} (h : validName s = true) :
    strHasChar s '/' = false := by
  simp [validName] at h
  exact h.1.2

theorem validName_bslash {s : String} (h : validName s = true) :
    strHasChar s '\\' = false := by
  simp [validName] at h
  exact h.2

theorem strHasChar_false_iff {s : String} {c : Char} :
    strHasChar s c = false ↔ c ∉ s.data := by
  unfold strHasChar
  rw [← Bool.not_eq_true, not_iff_not]
  exact List.elem_iff

theorem splitOnCharList_cons (c x : Char) (xs : List Char) :
    splitOnCharList c (x :: xs) =
      if x == c then [] :: splitOnCharList c xs
      else (x :: (splitOnCharList c xs).headD []) :: (splitOnCharList c xs).tail :=
  rfl

theorem splitOnCharList_ne_nil (c : Char) (l : List Char) :
    splitOnCharList c l ≠ [] := by
  induction l with
  | nil => simp [splitOnCharList]
  | cons x xs ih =>
    rw [splitOnCharList_cons]
    by_cases h : (x == c) = true
    · simp [h]
    · simp [h]

theorem splitOnCharList_append (c : Char) (xs ys : List Char) :
    splitOnCharList c (xs ++ c :: ys) =
      splitOnCharList c xs ++ splitOnCharList c ys := by
  induction xs with
  | nil =>
    simp only [List.nil_append, splitOnCharList_cons, BEq.refl, if_true]
    rfl
  | cons x xs ih =>
    rw [List.cons_append, splitOnCharList_cons, splitOnCharList_cons, ih]
    by_cases h : (x == c) = true
    · simp [h]
    · simp only [h, Bool.false_eq_true, if_false]
      obtain ⟨s, rest, hs⟩ := List.exists_cons_of_ne_nil (splitOnCharList_ne_nil c xs)
      rw [hs]
      simp

theorem splitOnCharList_of_not_mem {c : Char} {l : List Char} (h : c ∉ l) :
    splitOnCharList c l = [l] := by
  induction l with
  | nil => rfl
  | cons x xs ih =>
    simp only [List.mem_cons, not_or] at h
    rw [splitOnCharList_cons]
    have hx : (x == c) = false := by
      simp only [beq_eq_false_iff_ne, ne_eq]
      exact fun hxc => h.1 hxc.symm
    simp only [hx, Bool.false_eq_true, if_false, ih h.2]
    rfl

theorem splitSlash_single {n : String} (h : strHasChar n '/' = false) :
    splitSlash n = [n] := by
  unfold splitSlash
  rw [splitOnCharList_of_not_mem (strHasChar_false_iff.mp h)]
  simp

theorem data_slash_append (p n : String) :
    (p ++ "/" ++ n).data = p.data ++ '/' :: n.data := by
  simp [String.data_append]

theorem splitSlash_append {p n : String} (hp : p ≠ "")
    (hn : strHasChar n '/' = false) :
    splitSlash (joinRel p n) = splitSlash p ++ [n] := by
  unfold joinRel
  rw [if_neg hp]
  unfold splitSlash
  rw [data_slash_append, splitOnCharList_append,
    splitOnCharList_of_not_mem (strHasChar_false_iff.mp hn)]
  simp

theorem append_slash_ne (s t : String) : s ++ "/" ++ t ≠ "" := by
  intro h
  have := congrArg String.data h
  simp [String.data_append] at this

theorem joinSegs_cons_cons (s t : String) (ts : List String) :
    joinSegs (s :: t :: ts) = s ++ "/" ++ joinSegs (t :: ts) := rfl

theorem joinSegs_ne_empty {ps : List String} (h : ps ≠ [])
    (hv : ∀ s ∈ ps, s ≠ "") : joinSegs ps ≠ "" := by
  cases ps with
  | nil => contradiction
  | cons s rest =>
    cases rest with
    | nil => simpa [joinSegs] using hv s (by simp)
    | cons t ts =>
      rw [joinSegs_cons_cons]
      exact append_slash_ne s (joinSegs (t :: ts))

theorem joinSegs_append_single {ps : List String} {n : String}
    (hv : ∀ s ∈ ps, s ≠ "") :
    joinSegs (ps ++ [n]) = joinRel (joinSegs ps) n := by
  induction ps with
  | nil => simp [joinSegs, joinRel]
  | cons s rest ih =>
    have hs : s ≠ "" := hv s (by simp)
    cases rest with
    | nil =>
      show joinSegs [s, n] = joinRel (joinSegs [s]) n
      show s ++ "/" ++ joinSegs [n] = joinRel s n
      simp [joinSegs, joinRel, hs]
    | cons t ts =>
      have hrest : ∀ x ∈ t :: ts, x ≠ "" := fun x hx => hv x (by simp [hx])
      have hne : joinSegs (t :: ts) ≠ "" := joinSegs_ne_empty (by simp) hrest
      have ihr := ih hrest
      show joinSegs (s :: (t :: ts ++ [n])) = joinRel (joinSegs (s :: t :: ts)) n
      have hcons : joinSegs (s :: (t :: ts ++ [n])) =
          s ++ "/" ++ joinSegs (t :: ts ++ [n]) := by
        cases ts <;> rfl
      rw [hcons, ihr, joinSegs_cons_cons]
      unfold joinRel
      rw [if_neg hne, if_neg (append_slash_ne s (joinSegs (t :: ts)))]
      simp only [String.append_assoc]

theorem splitSlash_joinSegs {ps : List String} (h : ps ≠ [])
    (hv : ∀ s ∈ ps, validName s = true) :
    splitSlash (joinSegs ps) = ps := by
  induction ps with
  | nil => contradiction
  | cons s rest ih =>
    cases rest with
    | nil =>
      show splitSlash (joinSegs [s]) = [s]
      exact splitSlash_single (validName_slash (hv s (by simp)))
    | cons t ts =>
      have hrest : ∀ x ∈ t :: ts, validName x = true := fun x hx => hv x (by simp [hx])
      have ihr := ih (by simp) hrest
      rw [joinSegs_cons_cons]
      unfold splitSlash
      rw [data_slash_append, splitOnCharList_append,
        splitOnCharList_of_not_mem
          (strHasChar_false_iff.mp (validName_slash (hv s (by simp))))]
      simp only [List.map_append, List.map_cons, List.map_nil]
      unfold splitSlash at ihr
      rw [ihr]
      rfl

theorem joinSegs_bslash {ps : List String}
    (hv : ∀ s ∈ ps, strHasChar s '\\' = false) :
    strHasChar (joinSegs ps) '\\' = false := by
  induction ps with
  | nil => rfl
  | cons s rest ih =>
    cases rest with
    | nil => exact hv s (by simp)
    | cons t ts =>
      have hrest := ih (fun x hx => hv x (by simp [hx]))
      rw [joinSegs_cons_cons, strHasChar_false_iff, data_slash_append]
      simp only [List.mem_append, List.mem_cons, not_or]
      exact ⟨strHasChar_false_iff.mp (hv s (by simp)), by decide,
        strHasChar_false_iff.mp hrest⟩

theorem map_backslash_id {l : List Char} (h : '\\' ∉ l) :
    l.map (fun c => if c == '\\' then '/' else c) = l := by
  induction l with
  | nil => rfl
  | cons c cs ih =>
    simp only [List.mem_cons, not_or] at h
    have hc : (c == '\\') = false := by
      simp only [beq_eq_false_iff_ne, ne_eq]
      exact fun hc' => h.1 hc'.symm
    simp only [List.map_cons, hc, Bool.false_eq_true, if_false, ih h.2]

theorem normalizePath_eq_self {s : String} (h : strHasChar s '\\' = false) :
    normalizePath s = s := by
  unfold normalizePath
  ext1
  show s.data.map _ = s.data
  exact map_backslash_id (strHasChar_false_iff.mp h)

theorem validTree_cons (e : FSEntry) (rest : List FSEntry) :
    validTree (e :: rest) =
      (validName e.name && validTree e.entries && validTree rest) := by
  cases e <;> simp [validTree, FSEntry.name, FSEntry.entries]

theorem scanItems_nil (lc : String → String → Int) (opts : GtreeOptions)
    (ig : List String) (pre : String) (lvl : Nat) :
    scanItems lc opts ig [] pre lvl = [] := by
  simp [scanItems]

theorem scanItems_cons_hidden {lc : String → String → Int} {opts : GtreeOptions}
    {ig : List String} {e : FSEntry} {rest : List FSEntry} {pre : String} {lvl : Nat}
    (h : (!opts.showHidden && strStarts e.name ".") = true) :
    scanItems lc opts ig (e :: rest) pre lvl = scanItems lc opts ig rest pre lvl := by
  cases e <;> simp_all [scanItems, FSEntry.name]

theorem scanItems_cons_ignored {lc : String → String → Int} {opts : GtreeOptions}
    {ig : List String} {e : FSEntry} {rest : List FSEntry} {pre : String} {lvl : Nat}
    (h1 : ¬ (!opts.showHidden && strStarts e.name ".") = true)
    (h2 : ignores ig (joinRel pre e.name) = true) :
    scanItems lc opts ig (e :: rest) pre lvl = scanItems lc opts ig rest pre lvl := by
  cases e <;> simp_all [scanItems, FSEntry.name]

theorem scanItems_cons_file {lc : String → String → Int} {opts : GtreeOptions}
    {ig : List String} {n : String} {rest : List FSEntry} {pre : String} {lvl : Nat}
    (h1 : ¬ (!opts.showHidden && strStarts n ".") = true)
    (h2 : ignores ig (joinRel pre n) = false) :
    scanItems lc opts ig (.file n :: rest) pre lvl =
      FileNode.mk n (joinRel pre n) false none lvl ::
        scanItems lc opts ig rest pre lvl := by
  simp_all [scanItems, FSEntry.name]

theorem scanItems_cons_dir {lc : String → String → Int} {opts : GtreeOptions}
    {ig : List String} {n : String} {readable : Bool} {es : List FSEntry}
    {rest : List FSEntry} {pre : String} {lvl : Nat}
    (h1 : ¬ (!opts.showHidden && strStarts n ".") = true)
    (h2 : ignores ig (joinRel pre n) = false) :
    scanItems lc opts ig (.dir n readable es :: rest) pre lvl =
      FileNode.mk n (joinRel pre n) true
        (some (sortNodes lc
          (if depthExceeded opts (lvl + 1) then []
           else if readable then scanItems lc opts ig es (joinRel pre n) (lvl + 1)
           else []))) lvl ::
        scanItems lc opts ig rest pre lvl := by
  simp_all [scanItems, FSEntry.name]

/-- Soundness of the scanner with respect to paths and names: every node
the scan emits (at any depth) sits at a segment path `ps ++ qs` extending
the scan root's segments `ps` by the non-empty chain `qs` of entry names
that were emitted on the way down; none of those names is hidden when
`showHidden` is off, and no path prefix that extends `ps` is matched by
the ignore predicate. -/
theorem scanItems_sound (lc : String → String → Int) (opts : GtreeOptions)
    (ig : List String) (es : List FSEntry) (pre : String) (lvl : Nat) :
    validTree es = true →
    ∀ ps : List String, pre = joinSegs ps →
      (∀ s ∈ ps, validName s = true) →
      ∀ n ∈ collectList (scanItems lc opts ig es pre lvl),
        ∃ qs : List String, qs ≠ [] ∧
          (∀ s ∈ qs, validName s = true ∧
            (opts.showHidden = false → strStarts s "." = false)) ∧
          n.name ∈ qs ∧
          n.path = joinSegs (ps ++ qs) ∧
          splitSlash n.path = ps ++ qs ∧
          (∀ k, ps.length < k → k ≤ (ps ++ qs).length →
            ignores ig (joinSegs ((ps ++ qs).take k)) = false) := by
  induction es, pre, lvl using scanItems.induct lc opts ig with
  | case1 pre lvl =>
    intro _ ps hpre hv n hn
    rw [scanItems_nil] at hn
    simp [collectList] at hn
  | case2 e rest pre lvl h ih =>
    intro hval ps hpre hv n hn
    rw [scanItems_cons_hidden h] at hn
    rw [validTree_cons] at hval
    simp only [Bool.and_eq_true] at hval
    exact ih hval.2 ps hpre hv n hn
  | case3 e rest pre lvl rp h1 h2 ih =>
    intro hval ps hpre hv n hn
    rw [scanItems_cons_ignored h1 h2] at hn
    rw [validTree_cons] at hval
    simp only [Bool.and_eq_true] at hval
    exact ih hval.2 ps hpre hv n hn
  | case4 rest pre lvl nm rp h1 h2 ih =>
    intro hval ps hpre hv n hn
    rw [validTree_cons] at hval
    simp only [Bool.and_eq_true] at hval
    try simp only [FSEntry.name] at h1 h2
    have hvn : validName nm = true := hval.1.1
    have hig : ignores ig (joinRel pre nm) = false := by
      simp only [Bool.not_eq_true] at h2
      exact h2
    rw [scanItems_cons_file h1 hig] at hn
    rw [collectList_cons] at hn
    have hps_ne : ∀ s ∈ ps, s ≠ "" := fun s hs => validName_ne (hv s hs)
    have hjoin : joinRel pre nm = joinSegs (ps ++ [nm]) := by
      rw [hpre, joinSegs_append_single hps_ne]
    rcases List.mem_cons.mp hn with rfl | hn
    · refine ⟨[nm], by simp, ?_, by simp [FileNode.name], ?_, ?_, ?_⟩
      · intro s hs
        rcases List.mem_singleton.mp hs with rfl
        refine ⟨hvn, fun hsh => ?_⟩
        simp only [hsh, Bool.not_false, Bool.true_and, Bool.not_eq_true] at h1
        exact h1
      · simpa [FileNode.path] using hjoin
      · show splitSlash (joinRel pre nm) = ps ++ [nm]
        rw [hjoin]
        exact splitSlash_joinSegs (by simp)
          (by intro s hs
              rcases List.mem_append.mp hs with hs | hs
              · exact hv s hs
              · rcases List.mem_singleton.mp hs with rfl; exact hvn)
      · intro k hk1 hk2
        simp only [List.length_append, List.length_singleton] at hk2
        have hk : k = ps.length + 1 := by omega
        subst hk
        rw [List.take_of_length_le (by simp), ← hjoin]
        exact hig
    · rcases List.mem_append.mp hn with hn | hn
      · simp [childForest, FileNode.children, collectList] at hn
      · exact ih hval.2 ps hpre hv n hn
  | case5 rest pre lvl nm readable entries rp h1 h2 ih1 ih2 =>
    intro hval ps hpre hv n hn
    rw [validTree_cons] at hval
    simp only [Bool.and_eq_true] at hval
    try simp only [FSEntry.name, FSEntry.entries] at h1 h2 hval
    have hvn : validName nm = true := hval.1.1
    have hig : ignores ig (joinRel pre nm) = false := by
      simp only [Bool.not_eq_true] at h2
      exact h2
    rw [scanItems_cons_dir h1 hig] at hn
    rw [collectList_cons] at hn
    have hps_ne : ∀ s ∈ ps, s ≠ "" := fun s hs => validName_ne (hv s hs)
    have hjoin : joinRel pre nm = joinSegs (ps ++ [nm]) := by
      rw [hpre, joinSegs_append_single hps_ne]
    have hv' : ∀ s ∈ ps ++ [nm], validName s = true := by
      intro s hs
      rcases List.mem_append.mp hs with hs | hs
      · exact hv s hs
      · rcases List.mem_singleton.mp hs with rfl; exact hvn
    have hname_ok : opts.showHidden = false → strStarts nm "." = false := by
      intro hsh
      simp only [hsh, Bool.not_false, Bool.true_and, Bool.not_eq_true] at h1
      exact h1
    rcases List.mem_cons.mp hn with rfl | hn
    · refine ⟨[nm], by simp, ?_, by simp [FileNode.name], ?_, ?_, ?_⟩
      · intro s hs
        rcases List.mem_singleton.mp hs with rfl
        exact ⟨hvn, hname_ok⟩
      · simpa [FileNode.path] using hjoin
      · show splitSlash (joinRel pre nm) = ps ++ [nm]
        rw [hjoin]
        exact splitSlash_joinSegs (by simp) hv'
      · intro k hk1 hk2
        simp only [List.length_append, List.length_singleton] at hk2
        have hk : k = ps.length + 1 := by omega
        subst hk
        rw [List.take_of_length_le (by simp), ← hjoin]
        exact hig
    · rcases List.mem_append.mp hn with hn | hn
      · -- a descendant inside the directory's children
        simp only [childForest, FileNode.children] at hn
        rw [mem_collect_sortNodes] at hn
        by_cases hd : depthExceeded opts (lvl + 1) = true
        · simp [hd, collectList] at hn
        · simp only [hd, Bool.false_eq_true, if_false] at hn
          by_cases hr : readable = true
          · simp only [hr, if_true] at hn
            obtain ⟨qs', hqne, hqv, hqmem, hpath, hsplit, hpref⟩ :=
              ih1 hval.1.2 (ps ++ [nm])
                (show joinRel pre nm = joinSegs (ps ++ [nm]) from hjoin) hv' n hn
            refine ⟨nm :: qs', by simp, ?_, List.mem_cons_of_mem nm hqmem, ?_, ?_, ?_⟩
            · intro s hs
              rcases List.mem_cons.mp hs with rfl | hs
              · exact ⟨hvn, hname_ok⟩
              · exact hqv s hs
            · rw [hpath, List.append_assoc]
              rfl
            · rw [hsplit, List.append_assoc]
              rfl
            · intro k hk1 hk2
              by_cases hkk : k ≤ ps.length + 1
              · have hk : k = ps.length + 1 := by omega
                subst hk
                have : (ps ++ nm :: qs').take (ps.length + 1) = ps ++ [nm] := by
                  rw [List.take_append_eq_append_take]
                  simp
                rw [this, ← hjoin]
                exact hig
              · have h1' : (ps ++ [nm]).length < k := by
                  simp only [List.length_append, List.length_singleton]
                  omega
                have h2' : k ≤ ((ps ++ [nm]) ++ qs').length := by
                  simp only [List.length_append, List.length_singleton,
                    List.length_cons] at hk2 ⊢
                  omega
                have := hpref k h1' h2'
                rwa [List.append_assoc] at this
          · simp only [Bool.not_eq_true] at hr
            simp [hr, collectList] at hn
      · exact ih2 hval.2 ps hpre hv n hn

theorem matchesPattern_eq_claimMatches (p pat : String) :
    matchesPattern p pat = claimMatches pat p := by
  unfold matchesPattern claimMatches
  by_cases h : strEnds pat "/**" = true
  · simp [h, Bool.or_comm]
  · simp only [Bool.not_eq_true] at h
    simp only [h, Bool.false_eq_true, if_false]
    by_cases h2 : strHas pat "/" = true
    · simp [h2]
    · simp only [Bool.not_eq_true] at h2
      simp only [h2, Bool.false_eq_true, if_false]
      rw [Bool.eq_iff_iff]
      simp only [List.any_eq_true, beq_iff_eq, exists_eq_right,
        List.contains_iff_exists_mem_beq]
      simp

/-- C2: the ignore predicate on a path returns true exactly when some
pattern in the ordered list matches the forward-slash-normalized path
under the three-case rule, and consequently the result is invariant under
permutation of the pattern list. -/
theorem ignores_iff_and_perm_invariant :
    (∀ (patterns : List String) (p : String),
      ignores patterns p = true ↔
        ∃ pat ∈ patterns, claimMatches pat (normalizePath p) = true) ∧
    (∀ (patterns patterns2 : List String) (p : String),
      patterns.Perm patterns2 → ignores patterns p = ignores patterns2 p) := by
  constructor
  · intro patterns p
    unfold ignores
    simp only [List.any_eq_true]
    constructor
    · rintro ⟨pat, hmem, hm⟩
      exact ⟨pat, hmem, by rwa [matchesPattern_eq_claimMatches] at hm⟩
    · rintro ⟨pat, hmem, hm⟩
      exact ⟨pat, hmem, by rwa [matchesPattern_eq_claimMatches]⟩
  · intro patterns patterns2 p hperm
    unfold ignores
    rw [Bool.eq_iff_iff]
    simp only [List.any_eq_true]
    exact ⟨fun ⟨a, ha, hm⟩ => ⟨a, hperm.mem_iff.mp ha, hm⟩,
      fun ⟨a, ha, hm⟩ => ⟨a, hperm.mem_iff.mpr ha, hm⟩⟩

/-- C2 witness: concrete instance of the characterization and of
permutation invariance. -/
theorem ignores_iff_and_perm_invariant_witness :
    (ignores [".git", "node_modules"] "src/.git/x" = true ↔
      ∃ pat ∈ [".git", "node_modules"],
        claimMatches pat (normalizePath "src/.git/x") = true) ∧
    ignores [".git", "node_modules"] "src/.git/x" =
      ignores ["node_modules", ".git"] "src/.git/x" := by
  constructor
  · exact ignores_iff_and_perm_invariant.1 [".git", "node_modules"] "src/.git/x"
  · exact ignores_iff_and_perm_invariant.2 [".git", "node_modules"]
      ["node_modules", ".git"] "src/.git/x" (List.Perm.swap _ _ _)

theorem collect_scanDirectory_root (lc : String → String → Int)
    (opts : GtreeOptions) (ig : List String) (entries : List FSEntry)
    (hval : validTree entries = true) :
    ∀ n ∈ collectList (scanDirectory lc opts ig (some entries) "" 0),
      ∃ qs : List String, qs ≠ [] ∧
        (∀ s ∈ qs, validName s = true ∧
          (opts.showHidden = false → strStarts s "." = false)) ∧
        n.name ∈ qs ∧
        n.path = joinSegs qs ∧
        splitSlash n.path = qs ∧
        (∀ k, 0 < k → k ≤ qs.length →
          ignores ig (joinSegs (qs.take k)) = false) := by
  intro n hn
  unfold scanDirectory at hn
  by_cases hd : depthExceeded opts 0 = true
  · simp [hd, collectList] at hn
  · simp only [hd, Bool.false_eq_true, if_false] at hn
    rw [mem_collect_sortNodes] at hn
    have h := scanItems_sound lc opts ig entries "" 0 hval [] rfl (by simp) n hn
    simpa using h

/-- C1 (amended): every node the scan emits has a relative path none of
whose `/`-separated ancestor prefixes (itself included) is matched by the
ignore predicate, so an entry whose relative path the matcher accepts is
absent together with its whole subtree; in Scenario B, however, the
trailing-slash pattern `ignored_dir/` matches only paths containing
`ignored_dir/` as a substring, so the line for `ignored_dir` itself is
emitted (with no children) while `ignored_file.txt` and everything under
`ignored_dir` are absent. -/
theorem generateTree_ignore_invariant (lc : String → String → Int)
    (opts : GtreeOptions) (g : Option String) (entries : List FSEntry)
    (hval : validTree entries = true) :
    (∀ n ∈ collectList (scanDirectory lc opts (createIgnorePatterns g)
        (some entries) "" 0),
      ignores (createIgnorePatterns g) n.path = false ∧
      (∀ k, 0 < k → k ≤ (splitSlash n.path).length →
        ignores (createIgnorePatterns g)
          (joinSegs ((splitSlash n.path).take k)) = false)) ∧
    generateTree lc0 "." "root" (.dir true demoB gitignoreB) {} =
      .ok "root\n├── ignored_dir\n└── visible_file.txt\n" := by
  constructor
  · intro n hn
    obtain ⟨qs, hqne, hqv, hqmem, hpath, hsplit, hpref⟩ :=
      collect_scanDirectory_root lc opts (createIgnorePatterns g) entries hval n hn
    constructor
    · have h := hpref qs.length (List.length_pos.mpr hqne) (le_refl _)
      rw [List.take_length] at h
      rw [hpath]
      exact h
    · rw [hsplit]
      exact hpref
  · simp [generateTree, demoB, gitignoreB, scanDirectory, scanItems,
      createIgnorePatterns, defaultIgnores, parseGitignore, splitOnCharList,
      strTrim, strStarts, listStarts, ignores, normalizePath, matchesPattern,
      strEnds, strHas, listInfix, strDropEnd, splitSlash, joinRel,
      depthExceeded, sortNodes, insertNode, cmpNodes, lc0, FSEntry.name,
      FileNode.isDirectory, FileNode.name, formatTree, treeIndent,
      FileNode.path, FileNode.children, FileNode.level, strHasChar]

/-- C1 witness: the invariant instantiated on the Scenario B tree at the
emitted `ignored_dir` node. -/
theorem generateTree_ignore_invariant_witness :
    ignores (createIgnorePatterns gitignoreB)
      (FileNode.mk "ignored_dir" "ignored_dir" true (some []) 0).path = false ∧
    ignores (createIgnorePatterns gitignoreB)
      (joinSegs ((splitSlash
        (FileNode.mk "ignored_dir" "ignored_dir" true (some []) 0).path).take 1)) =
      false := by
  have h := (generateTree_ignore_invariant lc0 {} gitignoreB demoB
      (by simp [validTree, validName, demoB, strHasChar])).1
    (FileNode.mk "ignored_dir" "ignored_dir" true (some []) 0)
    (by simp [demoB, gitignoreB, scanDirectory, scanItems, collectList,
        createIgnorePatterns, defaultIgnores, parseGitignore, splitOnCharList,
        strTrim, strStarts, listStarts, ignores, normalizePath, matchesPattern,
        strEnds, strHas, listInfix, strDropEnd, splitSlash, joinRel,
        depthExceeded, sortNodes, insertNode, cmpNodes, lc0, FSEntry.name,
        FileNode.isDirectory, FileNode.name, childForest,
        FileNode.path, FileNode.children, FileNode.level, strHasChar])
  exact ⟨h.1, h.2 1 (by norm_num)
    (by simp [FileNode.path, splitSlash, splitOnCharList])⟩

/-- C1 counterexample: with a `.gitignore` holding `ignored_file.txt`
and `ignored_dir/`, the output does contain a line for `ignored_dir`
(the claim asserts it contains none). -/
theorem scenarioB_emits_ignored_dir_line :
    generateTree lc0 "." "root" (.dir true demoB gitignoreB) {} =
      .ok "root\n├── ignored_dir\n└── visible_file.txt\n" ∧
    "ignored_dir" ∈ (collectList (scanDirectory lc0 {}
        (createIgnorePatterns gitignoreB) (some demoB) "" 0)).map FileNode.name ∧
    strHas "root\n├── ignored_dir\n└── visible_file.txt\n" "ignored_dir" = true := by
  refine ⟨?_, ?_, by decide⟩
  · simp [generateTree, demoB, gitignoreB, scanDirectory, scanItems,
      createIgnorePatterns, defaultIgnores, parseGitignore, splitOnCharList,
      strTrim, strStarts, listStarts, ignores, normalizePath, matchesPattern,
      strEnds, strHas, listInfix, strDropEnd, splitSlash, joinRel,
      depthExceeded, sortNodes, insertNode, cmpNodes, lc0, FSEntry.name,
      FileNode.isDirectory, FileNode.name, formatTree, treeIndent,
      FileNode.path, FileNode.children, FileNode.level, strHasChar]
  · simp [demoB, gitignoreB, scanDirectory, scanItems, collectList,
      createIgnorePatterns, defaultIgnores, parseGitignore, splitOnCharList,
      strTrim, strStarts, listStarts, ignores, normalizePath, matchesPattern,
      strEnds, strHas, listInfix, strDropEnd, splitSlash, joinRel,
      depthExceeded, sortNodes, insertNode, cmpNodes, lc0, FSEntry.name,
      FileNode.isDirectory, FileNode.name, childForest,
      FileNode.path, FileNode.children, FileNode.level, strHasChar]

theorem scanItems_depth (lc : String → String → Int) (opts : GtreeOptions)
    (ig : List String) (es : List FSEntry) (pre : String) (lvl : Nat) :
    depthExceeded opts lvl = false →
    ∀ n ∈ collectList (scanItems lc opts ig es pre lvl),
      depthExceeded opts n.level = false ∧
      (depthExceeded opts (n.level + 1) = true →
        n.children = none ∨ n.children = some []) := by
  induction es, pre, lvl using scanItems.induct lc opts ig with
  | case1 pre lvl =>
    intro _ n hn
    rw [scanItems_nil] at hn
    simp [collectList] at hn
  | case2 e rest pre lvl h ih =>
    intro hd n hn
    rw [scanItems_cons_hidden h] at hn
    exact ih hd n hn
  | case3 e rest pre lvl rp h1 h2 ih =>
    intro hd n hn
    rw [scanItems_cons_ignored h1 h2] at hn
    exact ih hd n hn
  | case4 rest pre lvl nm rp h1 h2 ih =>
    intro hd n hn
    try simp only [FSEntry.name] at h1 h2
    have hig : ignores ig (joinRel pre nm) = false := by
      simp only [Bool.not_eq_true] at h2
      exact h2
    rw [scanItems_cons_file h1 hig, collectList_cons] at hn
    rcases List.mem_cons.mp hn with rfl | hn
    · exact ⟨by simpa [FileNode.level] using hd,
        fun _ => Or.inl (by simp [FileNode.children])⟩
    · rcases List.mem_append.mp hn with hn | hn
      · simp [childForest, FileNode.children, collectList] at hn
      · exact ih hd n hn
  | case5 rest pre lvl nm readable entries rp h1 h2 ih1 ih2 =>
    intro hd n hn
    try simp only [FSEntry.name] at h1 h2
    have hig : ignores ig (joinRel pre nm) = false := by
      simp only [Bool.not_eq_true] at h2
      exact h2
    rw [scanItems_cons_dir h1 hig, collectList_cons] at hn
    rcases List.mem_cons.mp hn with rfl | hn
    · refine ⟨by simpa [FileNode.level] using hd, fun hnext => ?_⟩
      right
      simp only [FileNode.level] at hnext
      simp [FileNode.children, hnext, sortNodes]
    · rcases List.mem_append.mp hn with hn | hn
      · simp only [childForest, FileNode.children] at hn
        rw [mem_collect_sortNodes] at hn
        by_cases hnext : depthExceeded opts (lvl + 1) = true
        · simp [hnext, collectList] at hn
        · simp only [hnext, Bool.false_eq_true, if_false] at hn
          by_cases hr : readable = true
          · simp only [hr, if_true] at hn
            exact ih1 (by simpa using hnext) n hn
          · simp only [Bool.not_eq_true] at hr
            simp [hr, collectList] at hn
      · exact ih2 hd n hn

/-- C3: with `maxDepth` set, a call entered at `currentLevel >= maxDepth`
returns the empty sequence whatever the directory contents are; every
emitted node has `level <= maxDepth`; a node at the deepest emitted level
has no children in the output even when the underlying directory is
non-empty, while the directory's own name still appears (concretely:
three nested levels with `maxDepth = 2` keep `a` and `b`, and `b` carries
an empty child list although its directory contains `c`). -/
theorem scanDirectory_depth_policy (lc : String → String → Int)
    (opts : GtreeOptions) (ig : List String) (d : Int)
    (hd : opts.maxDepth = some d) :
    (∀ contents pre (lvl : Nat), (lvl : Int) ≥ d →
      scanDirectory lc opts ig contents pre lvl = []) ∧
    (∀ contents, ∀ n ∈ collectList (scanDirectory lc opts ig contents "" 0),
      (n.level : Int) ≤ d ∧
      ((n.level : Int) + 1 ≥ d → n.children = none ∨ n.children = some [])) ∧
    scanDirectory lc0 { maxDepth := some 2 } (createIgnorePatterns none)
        (some demoC) "" 0 =
      [FileNode.mk "a" "a" true
        (some [FileNode.mk "b" "a/b" true (some []) 1]) 0] := by
  refine ⟨?_, ?_, ?_⟩
  · intro contents pre lvl hlvl
    unfold scanDirectory
    have : depthExceeded opts lvl = true := by
      simp [depthExceeded, hd]
      exact hlvl
    simp [this]
  · intro contents n hn
    by_cases h0 : depthExceeded opts 0 = true
    · unfold scanDirectory at hn
      simp [h0, collectList] at hn
    · unfold scanDirectory at hn
      simp only [h0, Bool.false_eq_true, if_false] at hn
      cases contents with
      | none => simp [sortNodes, collectList] at hn
      | some es =>
        rw [mem_collect_sortNodes] at hn
        obtain ⟨hlev, hch⟩ := scanItems_depth lc opts ig es "" 0
          (by simpa using h0) n hn
        constructor
        · simp only [depthExceeded, hd, decide_eq_false_iff_not, not_le] at hlev
          omega
        · intro hge
          apply hch
          simp only [depthExceeded, hd, decide_eq_true_eq]
          push_cast
          omega
  · simp [scanDirectory, scanItems, demoC, createIgnorePatterns,
      defaultIgnores, splitOnCharList, strTrim, strStarts, listStarts,
      ignores, normalizePath, matchesPattern, strEnds, strHas, listInfix,
      strDropEnd, splitSlash, joinRel, depthExceeded, sortNodes, insertNode,
      cmpNodes, lc0, FSEntry.name, FileNode.isDirectory, FileNode.name,
      FileNode.path, FileNode.children, FileNode.level, strHasChar]

/-- C3 witness: the depth policy applied at `maxDepth = 2` on the
three-level fixture. -/
theorem scanDirectory_depth_policy_witness :
    scanDirectory lc0 { maxDepth := some 2 } (createIgnorePatterns none)
        (some demoC) "" 0 =
      [FileNode.mk "a" "a" true
        (some [FileNode.mk "b" "a/b" true (some []) 1]) 0] :=
  (scanDirectory_depth_policy lc0 { maxDepth := some 2 }
    (createIgnorePatterns none) 2 rfl).2.2

theorem cmpNodes_le_iff (lc : String → String → Int) (a b : FileNode) :
    cmpNodes lc a b ≤ 0 ↔
      ((b.isDirectory = true → a.isDirectory = true) ∧
       (a.isDirectory = b.isDirectory → lc a.name b.name ≤ 0)) := by
  cases ha : a.isDirectory <;> cases hb : b.isDirectory <;>
    simp [cmpNodes, ha, hb] <;> omega

theorem scanItems_children_sorted (lc : String → String → Int)
    (opts : GtreeOptions) (ig : List String)
    (htot : ∀ a b, lc a b ≤ 0 ∨ lc b a ≤ 0)
    (htrans : ∀ a b c, lc a b ≤ 0 → lc b c ≤ 0 → lc a c ≤ 0)
    (es : List FSEntry) (pre : String) (lvl : Nat) :
    ∀ n ∈ collectList (scanItems lc opts ig es pre lvl),
      ∀ cs, n.children = some cs →
        cs.Pairwise (fun x y => cmpNodes lc x y ≤ 0) := by
  induction es, pre, lvl using scanItems.induct lc opts ig with
  | case1 pre lvl =>
    intro n hn
    rw [scanItems_nil] at hn
    simp [collectList] at hn
  | case2 e rest pre lvl h ih =>
    intro n hn
    rw [scanItems_cons_hidden h] at hn
    exact ih n hn
  | case3 e rest pre lvl rp h1 h2 ih =>
    intro n hn
    rw [scanItems_cons_ignored h1 h2] at hn
    exact ih n hn
  | case4 rest pre lvl nm rp h1 h2 ih =>
    intro n hn
    try simp only [FSEntry.name] at h1 h2
    have hig : ignores ig (joinRel pre nm) = false := by
      simp only [Bool.not_eq_true] at h2
      exact h2
    rw [scanItems_cons_file h1 hig, collectList_cons] at hn
    rcases List.mem_cons.mp hn with rfl | hn
    · intro cs hcs
      simp [FileNode.children] at hcs
    · rcases List.mem_append.mp hn with hn | hn
      · simp [childForest, FileNode.children, collectList] at hn
      · exact ih n hn
  | case5 rest pre lvl nm readable entries rp h1 h2 ih1 ih2 =>
    intro n hn
    try simp only [FSEntry.name] at h1 h2
    have hig : ignores ig (joinRel pre nm) = false := by
      simp only [Bool.not_eq_true] at h2
      exact h2
    rw [scanItems_cons_dir h1 hig, collectList_cons] at hn
    rcases List.mem_cons.mp hn with rfl | hn
    · intro cs hcs
      simp only [FileNode.children, Option.some.injEq] at hcs
      rw [← hcs]
      exact pairwise_sortNodes htot htrans _
    · rcases List.mem_append.mp hn with hn | hn
      · simp only [childForest, FileNode.children] at hn
        rw [mem_collect_sortNodes] at hn
        by_cases hnext : depthExceeded opts (lvl + 1) = true
        · simp [hnext, collectList] at hn
        · simp only [hnext, Bool.false_eq_true, if_false] at hn
          by_cases hr : readable = true
          · simp only [hr, if_true] at hn
            exact ih1 n hn
          · simp only [Bool.not_eq_true] at hr
            simp [hr, collectList] at hn
      · exact ih2 n hn

/-- C4: after filtering, every sibling list of the scan result (the top
level and every children list) has all directory nodes before all file
nodes, and within each group names ascend under the locale-aware
comparison; concretely, a directory holding `file1.txt`, `file2.txt` and
`subdir` lists `subdir` before both files. -/
theorem scanDirectory_sorted (lc : String → String → Int)
    (htot : ∀ a b, lc a b ≤ 0 ∨ lc b a ≤ 0)
    (htrans : ∀ a b c, lc a b ≤ 0 → lc b c ≤ 0 → lc a c ≤ 0)
    (opts : GtreeOptions) (ig : List String) (contents : Option (List FSEntry))
    (pre : String) (lvl : Nat) :
    ((scanDirectory lc opts ig contents pre lvl).Pairwise
      (fun a b => (b.isDirectory = true → a.isDirectory = true) ∧
        (a.isDirectory = b.isDirectory → lc a.name b.name ≤ 0)) ∧
     ∀ n ∈ collectList (scanDirectory lc opts ig contents pre lvl),
       ∀ cs, n.children = some cs →
         cs.Pairwise (fun a b => (b.isDirectory = true → a.isDirectory = true) ∧
           (a.isDirectory = b.isDirectory → lc a.name b.name ≤ 0))) ∧
    (scanDirectory lc0 {} (createIgnorePatterns none) (some demoA) "" 0).map
        FileNode.name = ["subdir", "file1.txt", "file2.txt"] := by
  refine ⟨⟨?_, ?_⟩, ?_⟩
  · unfold scanDirectory
    by_cases hdep : depthExceeded opts lvl = true
    · simp [hdep]
    · simp only [hdep, Bool.false_eq_true, if_false]
      exact (pairwise_sortNodes htot htrans _).imp
        (fun h => (cmpNodes_le_iff lc _ _).mp h)
  · intro n hn cs hcs
    unfold scanDirectory at hn
    by_cases hdep : depthExceeded opts lvl = true
    · simp [hdep, collectList] at hn
    · simp only [hdep, Bool.false_eq_true, if_false] at hn
      rw [mem_collect_sortNodes] at hn
      cases contents with
      | none => simp [collectList] at hn
      | some es =>
        exact (scanItems_children_sorted lc opts ig htot htrans es pre lvl
          n hn cs hcs).imp (fun h => (cmpNodes_le_iff lc _ _).mp h)
  · simp [scanDirectory, scanItems, demoA, createIgnorePatterns,
      defaultIgnores, splitOnCharList, strTrim, strStarts, listStarts,
      ignores, normalizePath, matchesPattern, strEnds, strHas, listInfix,
      strDropEnd, splitSlash, joinRel, depthExceeded, sortNodes, insertNode,
      cmpNodes, lc0, FSEntry.name, FileNode.isDirectory, FileNode.name,
      FileNode.path, FileNode.children, FileNode.level, strHasChar]

/-- C4 witness: the Scenario A ordering obtained through the sort
invariant at a concrete comparison. -/
theorem scanDirectory_sorted_witness :
    (scanDirectory lc0 {} (createIgnorePatterns none) (some demoA) "" 0).map
        FileNode.name = ["subdir", "file1.txt", "file2.txt"] :=
  (scanDirectory_sorted lc0
    (fun _ _ => Or.inl (by norm_num [lc0]))
    (fun _ _ _ _ _ => by norm_num [lc0])
    {} (createIgnorePatterns none) (some demoA) "" 0).2

theorem str_append_empty (s : String) : s ++ "" = s := by
  ext1
  simp [String.data_append]

theorem str_empty_append (s : String) : "" ++ s = s := by
  ext1
  simp [String.data_append]

theorem strConcat_append (a b : List String) :
    strConcat (a ++ b) = strConcat a ++ strConcat b := by
  induction a with
  | nil => simp [strConcat, str_empty_append]
  | cons s rest ih => simp [strConcat, ih, String.append_assoc]

theorem treeIndent_eq_claimIndent (flags : List Bool) :
    treeIndent flags = claimIndent flags := by
  induction flags with
  | nil => rfl
  | cons b rest ih => simp [treeIndent, claimIndent, strConcat, ih]

theorem formatTree_eq_specLines (nodes : List FileNode) (flags : List Bool) :
    formatTree nodes flags = strConcat (specLines nodes flags) := by
  induction nodes, flags using formatTree.induct with
  | case1 flags => simp [formatTree, specLines, strConcat]
  | case2 n p d ch lv rest flags lastFlag ihc ihr =>
    have hline : treeIndent flags = claimIndent flags := treeIndent_eq_claimIndent flags
    cases ch with
    | none =>
      simp [formatTree, specLines, strConcat, strConcat_append, ihr, hline,
        String.append_assoc, str_append_empty, str_empty_append]
    | some cs =>
      replace ihc : formatTree cs (flags ++ [rest.isEmpty]) =
          strConcat (specLines cs (flags ++ [rest.isEmpty])) := ihc
      by_cases hcs : cs.length > 0
      · simp [formatTree, specLines, strConcat, strConcat_append, ihr, ihc, hcs,
          hline, String.append_assoc, str_append_empty, str_empty_append]
      · have hcs0 : cs = [] := by simpa using hcs
        subst hcs0
        simp [formatTree, specLines, strConcat, strConcat_append, ihr, hline,
          String.append_assoc, str_append_empty, str_empty_append]

/-- C5: the renderer's output equals, line by line, the specification's
description: after the root name line (no lead), one line per node in
depth-first, sorted order, each line led by four spaces per last-sibling
ancestor and `"│   "` per non-last ancestor, then `"└── "` for a last
sibling and `"├── "` otherwise; when the scan retains no children the
output is exactly the root line. -/
theorem generateTree_renders_specLines (lc : String → String → Int)
    (targetPath rootName : String) (readable : Bool) (entries : List FSEntry)
    (g : Option String) (opts : GtreeOptions) :
    (∀ nodes flags, formatTree nodes flags = strConcat (specLines nodes flags)) ∧
    generateTree lc targetPath rootName (.dir readable entries g) opts =
      .ok (rootName ++ "\n" ++ strConcat (specLines
        (scanDirectory lc opts (createIgnorePatterns g)
          (if readable then some entries else none) "" 0) [])) ∧
    (scanDirectory lc opts (createIgnorePatterns g)
        (if readable then some entries else none) "" 0 = [] →
      generateTree lc targetPath rootName (.dir readable entries g) opts =
        .ok (rootName ++ "\n")) := by
  refine ⟨formatTree_eq_specLines, ?_, ?_⟩
  · simp only [generateTree]
    by_cases h : (scanDirectory lc opts (createIgnorePatterns g)
        (if readable then some entries else none) "" 0).length > 0
    · simp only [h, if_pos]
      rw [formatTree_eq_specLines]
    · have h0 : scanDirectory lc opts (createIgnorePatterns g)
          (if readable then some entries else none) "" 0 = [] := by
        simpa using h
      simp [h0, specLines, strConcat, str_append_empty]
  · intro h
    simp only [generateTree]
    simp [h, str_append_empty]

/-- C5 witness: an empty directory renders as just the root line. -/
theorem generateTree_renders_specLines_witness :
    generateTree lc0 "." "root" (.dir true [] none) {} = .ok ("root" ++ "\n") :=
  (generateTree_renders_specLines lc0 "." "root" true [] none {}).2.2
    (by simp [scanDirectory, scanItems, depthExceeded, sortNodes])

/-- C6: `generateTree` produces an error exactly when the target is
missing or not a directory, with the messages
`"Path does not exist: <targetPath>"` and
`"Path is not a directory: <targetPath>"`, and the error value carries
nothing else (no partial output); failures to read a directory during
recursion are absorbed: an unreadable directory scans to the empty item
list, and an unreadable subdirectory entry still yields its node with an
empty child list. -/
theorem generateTree_failure_surface (lc : String → String → Int)
    (targetPath rootName : String) (opts : GtreeOptions) (ig : List String) :
    (∀ (target : FSTarget) (m : String),
      generateTree lc targetPath rootName target opts = .error m ↔
        (target = .missing ∧ m = "Path does not exist: " ++ targetPath) ∨
        (target = .nondir ∧ m = "Path is not a directory: " ++ targetPath)) ∧
    (∀ pre lvl, scanDirectory lc opts ig none pre lvl = []) ∧
    (∀ (nm : String) (es rest : List FSEntry) (pre : String) (lvl : Nat),
      ¬ (!opts.showHidden && strStarts nm ".") = true →
      ignores ig (joinRel pre nm) = false →
      scanItems lc opts ig (.dir nm false es :: rest) pre lvl =
        FileNode.mk nm (joinRel pre nm) true (some []) lvl ::
          scanItems lc opts ig rest pre lvl) := by
  refine ⟨?_, ?_, ?_⟩
  · intro target m
    cases target with
    | missing => simp [generateTree, eq_comm]
    | nondir => simp [generateTree, eq_comm]
    | dir r es g => simp [generateTree]
  · intro pre lvl
    unfold scanDirectory
    by_cases h : depthExceeded opts lvl = true <;> simp [h, sortNodes]
  · intro nm es rest pre lvl h1 h2
    rw [scanItems_cons_dir h1 h2]
    have hchild : (if depthExceeded opts (lvl + 1) then ([] : List FileNode)
        else if (false : Bool) then scanItems lc opts ig es (joinRel pre nm) (lvl + 1)
        else []) = [] := by
      by_cases hd : depthExceeded opts (lvl + 1) = true <;> simp [hd]
    rw [hchild]
    rfl

/-- C6 witness: the two error messages at a concrete target path, an
unreadable root scanning to the empty sequence, and an unreadable
subdirectory yielding a node with an empty child list. -/
theorem generateTree_failure_surface_witness :
    generateTree lc0 "p" "r" .missing {} = .error ("Path does not exist: " ++ "p") ∧
    generateTree lc0 "p" "r" .nondir {} = .error ("Path is not a directory: " ++ "p") ∧
    scanDirectory lc0 {} [] none "" 0 = [] ∧
    scanItems lc0 {} [] [.dir "sub" false [.file "x"]] "" 0 =
      FileNode.mk "sub" (joinRel "" "sub") true (some []) 0 ::
        scanItems lc0 {} [] [] "" 0 :=
  ⟨((generateTree_failure_surface lc0 "p" "r" {} []).1 .missing _).mpr
      (Or.inl ⟨rfl, rfl⟩),
   ((generateTree_failure_surface lc0 "p" "r" {} []).1 .nondir _).mpr
      (Or.inr ⟨rfl, rfl⟩),
   (generateTree_failure_surface lc0 "p" "r" {} []).2.1 "" 0,
   (generateTree_failure_surface lc0 "p" "r" {} []).2.2 "sub" [.file "x"] [] "" 0
     (by simp [strStarts, listStarts])
     (by simp [ignores])⟩

/-- C8: with `showHidden` off, no emitted node has a name starting with
`.`, and no `/`-segment of any emitted node's relative path starts with
`.` — a hidden entry and its entire subtree are absent; moreover a
hidden-named entry is skipped by an equation that holds for every ignore
set, the skip never consulting ignore matching. -/
theorem scanDirectory_hidden_policy (lc : String → String → Int)
    (opts : GtreeOptions) (ig : List String) (entries : List FSEntry)
    (hsh : opts.showHidden = false) (hval : validTree entries = true) :
    (∀ n ∈ collectList (scanDirectory lc opts ig (some entries) "" 0),
      strStarts n.name "." = false ∧
      ∀ seg ∈ splitSlash n.path, strStarts seg "." = false) ∧
    (∀ (e : FSEntry) (rest : List FSEntry) (pre : String) (lvl : Nat),
      strStarts e.name "." = true →
      scanItems lc opts ig (e :: rest) pre lvl =
        scanItems lc opts ig rest pre lvl) := by
  constructor
  · intro n hn
    obtain ⟨qs, hqne, hqv, hqmem, hpath, hsplit, hpref⟩ :=
      collect_scanDirectory_root lc opts ig entries hval n hn
    refine ⟨(hqv n.name hqmem).2 hsh, ?_⟩
    intro seg hseg
    rw [hsplit] at hseg
    exact (hqv seg hseg).2 hsh
  · intro e rest pre lvl h
    exact scanItems_cons_hidden (by simp [hsh, h])

/-- C8 witness: the hidden policy on a tree holding `.hidden`, `sub`
(with `.deep` inside) and `ok.txt`, at the emitted `sub` node. -/
theorem scanDirectory_hidden_policy_witness :
    strStarts (FileNode.mk "sub" "sub" true (some []) 0).name "." = false ∧
    strStarts "sub" "." = false := by
  have h := (scanDirectory_hidden_policy lc0 {} [] demoH rfl
      (by simp [validTree, validName, demoH, strHasChar])).1
    (FileNode.mk "sub" "sub" true (some []) 0)
    (by simp [demoH, scanDirectory, scanItems, collectList, splitOnCharList,
        strStarts, listStarts, ignores, normalizePath, matchesPattern,
        strEnds, strHas, listInfix, strDropEnd, splitSlash, joinRel,
        depthExceeded, sortNodes, insertNode, cmpNodes, lc0, FSEntry.name,
        FileNode.isDirectory, FileNode.name, childForest,
        FileNode.path, FileNode.children, FileNode.level, strHasChar])
  exact ⟨h.1, h.2 "sub" (by simp [FileNode.path, splitSlash, splitOnCharList])⟩

theorem listStarts_mem {l p : List Char} (h : listStarts l p = true) :
    ∀ x ∈ p, x ∈ l := by
  induction p generalizing l with
  | nil => simp
  | cons c cs ih =>
    cases l with
    | nil => simp [listStarts] at h
    | cons d ds =>
      simp only [listStarts, Bool.and_eq_true, beq_iff_eq] at h
      intro x hx
      rcases List.mem_cons.mp hx with rfl | hx
      · cases h.1
        exact List.mem_cons_self _ _
      · exact List.mem_cons_of_mem d (ih h.2 x hx)

theorem listInfix_singleton {l : List Char} {c : Char} :
    listInfix l [c] = true ↔ c ∈ l := by
  induction l with
  | nil => simp [listInfix]
  | cons x xs ih =>
    simp only [listInfix, Bool.or_eq_true, listStarts, Bool.and_eq_true,
      beq_iff_eq, ih, List.mem_cons]
    constructor
    · rintro (⟨h1, _⟩ | h)
      · exact Or.inl h1.symm
      · exact Or.inr h
    · rintro (rfl | h)
      · exact Or.inl ⟨rfl, by simp [listStarts]⟩
      · exact Or.inr h

theorem matchesPattern_slashFree {path pat : String}
    (h : strHasChar pat '/' = false) :
    matchesPattern path pat = (splitSlash path).contains pat := by
  unfold matchesPattern
  have h2 : strHas pat "/" = false := by
    have hni : ¬ (listInfix pat.data ['/'] = true) := by
      rw [listInfix_singleton]
      exact strHasChar_false_iff.mp h
    simpa using hni
  have h1 : strEnds pat "/**" = false := by
    by_cases he : strEnds pat "/**" = true
    · exfalso
      have hm := listStarts_mem he '/' (by decide)
      rw [List.mem_reverse] at hm
      rw [strHasChar_false_iff] at h
      exact h hm
    · simpa using he
  simp [h1, h2]

/-- C10: even with `showHidden = true`, entries named `.git`,
`.DS_Store` or `node_modules` (and their subtrees) are absent from the
scan: no segment of any emitted node's relative path is one of the
default ignore patterns, because the ignore check applies to every entry
regardless of `showHidden`. -/
theorem scanDirectory_default_ignores (lc : String → String → Int)
    (opts : GtreeOptions) (g : Option String) (entries : List FSEntry)
    (hsh : opts.showHidden = true) (hval : validTree entries = true) :
    ∀ n ∈ collectList (scanDirectory lc opts (createIgnorePatterns g)
        (some entries) "" 0),
      ∀ seg ∈ splitSlash n.path, seg ∉ defaultIgnores := by
  intro n hn seg hseg hdef
  obtain ⟨qs, hqne, hqv, hqmem, hpath, hsplit, hpref⟩ :=
    collect_scanDirectory_root lc opts (createIgnorePatterns g) entries hval n hn
  rw [hsplit] at hseg
  obtain ⟨l1, l2, rfl⟩ := List.append_of_mem hseg
  have hk := hpref (l1.length + 1) (by omega)
    (by simp only [List.length_append, List.length_cons]; omega)
  have htake : (l1 ++ seg :: l2).take (l1.length + 1) = l1 ++ [seg] := by
    rw [List.take_append_eq_append_take]
    simp
  rw [htake] at hk
  have hv1 : ∀ s ∈ l1 ++ [seg], validName s = true := by
    intro s hs
    refine (hqv s ?_).1
    rcases List.mem_append.mp hs with hs | hs
    · exact List.mem_append.mpr (Or.inl hs)
    · rcases List.mem_singleton.mp hs with rfl
      exact hseg
  have hnb : strHasChar (joinSegs (l1 ++ [seg])) '\\' = false :=
    joinSegs_bslash (fun s hs => validName_bslash (hv1 s hs))
  have hslashfree : strHasChar seg '/' = false :=
    validName_slash ((hqv seg hseg).1)
  unfold ignores at hk
  rw [List.any_eq_false] at hk
  have hkseg := hk seg (List.mem_append.mpr (Or.inl hdef))
  rw [normalizePath_eq_self hnb, matchesPattern_slashFree hslashfree] at hkseg
  have hmem : seg ∈ splitSlash (joinSegs (l1 ++ [seg])) := by
    rw [splitSlash_joinSegs (by simp) hv1]
    simp
  exact hkseg (List.elem_iff.mpr hmem)

/-- C10 witness: the default exclusions on a tree that contains `.git`,
`.DS_Store` and `node_modules` entries, scanned with hidden files shown,
at the single emitted node `ok.txt`. -/
theorem scanDirectory_default_ignores_witness :
    "ok.txt" ∉ defaultIgnores :=
  scanDirectory_default_ignores lc0 { showHidden := true } none demoG rfl
    (by simp [validTree, validName, demoG, strHasChar])
    (FileNode.mk "ok.txt" "ok.txt" false none 0)
    (by simp [demoG, scanDirectory, scanItems, collectList, splitOnCharList,
        strStarts, listStarts, ignores, normalizePath, matchesPattern,
        createIgnorePatterns, defaultIgnores, strEnds, strHas, listInfix,
        strDropEnd, splitSlash, joinRel, depthExceeded, sortNodes, insertNode,
        cmpNodes, lc0, FSEntry.name, FileNode.isDirectory, FileNode.name,
        childForest, FileNode.path, FileNode.children, FileNode.level,
        strHasChar])
    "ok.txt"
    (by simp [FileNode.path, splitSlash, splitOnCharList])

theorem strStarts_dashL_dash {arg : String} (h : strStarts arg "-L" = true) :
    strStarts arg "-" = true := by
  unfold strStarts at h ⊢
  revert h
  cases arg.data with
  | nil => intro h; exact absurd h (by decide)
  | cons c cs =>
    intro h
    replace h : listStarts (c :: cs) ['-', 'L'] = true := h
    simp only [listStarts, Bool.and_eq_true, beq_iff_eq] at h
    show listStarts (c :: cs) ['-'] = true
    simp [listStarts, h.1]

/-- C7 (amended): the argument translator scans tokens left to right
with one token of lookahead: `-L` followed by a token that `parseInt`
accepts sets `maxDepth` and consumes both tokens, a malformed or missing
lookahead leaves the options unchanged without consuming the lookahead;
`-a`/`--all` set `showHidden`; an attached `-L<n>` token sets `maxDepth`
from its suffix when it parses (this case is genuinely handled, not
ignored); a token not starting with `-` becomes the path, the last one
winning; every other `-`-prefixed token is skipped; defaults are path
`"."` and `showHidden = false`; args `["-L", "2", "--noreport"]` give
`maxDepth = 2` and path `"."`. -/
theorem parseTreeArgs_characterization :
    (∀ (opts : GtreeOptions) (tp : String),
      parseTreeArgsLoop [] opts tp = ⟨tp, opts⟩) ∧
    (∀ (s : String) (rest : List String) (opts : GtreeOptions) (tp : String)
        (d : Int), parseIntJS s = some d →
      parseTreeArgsLoop ("-L" :: s :: rest) opts tp =
        parseTreeArgsLoop rest { opts with maxDepth := some d } tp) ∧
    (∀ (s : String) (rest : List String) (opts : GtreeOptions) (tp : String),
      parseIntJS s = none →
      parseTreeArgsLoop ("-L" :: s :: rest) opts tp =
        parseTreeArgsLoop (s :: rest) opts tp) ∧
    (∀ (opts : GtreeOptions) (tp : String),
      parseTreeArgsLoop ["-L"] opts tp = ⟨tp, opts⟩) ∧
    (∀ (rest : List String) (opts : GtreeOptions) (tp : String),
      parseTreeArgsLoop ("-a" :: rest) opts tp =
        parseTreeArgsLoop rest { opts with showHidden := true } tp ∧
      parseTreeArgsLoop ("--all" :: rest) opts tp =
        parseTreeArgsLoop rest { opts with showHidden := true } tp) ∧
    (∀ (arg : String) (rest : List String) (opts : GtreeOptions) (tp : String),
      strStarts arg "-L" = true → arg ≠ "-L" →
      parseTreeArgsLoop (arg :: rest) opts tp =
        parseTreeArgsLoop rest
          (match parseIntJS (strDropStart arg 2) with
           | some d => { opts with maxDepth := some d }
           | none => opts) tp) ∧
    (∀ (arg : String) (rest : List String) (opts : GtreeOptions) (tp : String),
      strStarts arg "-" = false →
      parseTreeArgsLoop (arg :: rest) opts tp = parseTreeArgsLoop rest opts arg) ∧
    (∀ (arg : String) (rest : List String) (opts : GtreeOptions) (tp : String),
      strStarts arg "-" = true → strStarts arg "-L" = false →
      arg ≠ "-a" → arg ≠ "--all" →
      parseTreeArgsLoop (arg :: rest) opts tp = parseTreeArgsLoop rest opts tp) ∧
    (parseTreeArgs [] = ⟨".", ⟨none, false, true, none⟩⟩ ∧
     parseTreeArgs ["-L", "2", "--noreport"] =
       ⟨".", ⟨some 2, false, true, none⟩⟩) := by
  refine ⟨fun opts tp => rfl, ?_, ?_, ?_, ?_, ?_, ?_, ?_, rfl, rfl⟩
  · intro s rest opts tp d h
    rw [parseTreeArgsLoop.eq_def]
    simp [h]
  · intro s rest opts tp h
    rw [parseTreeArgsLoop.eq_def]
    simp [h]
  · intro opts tp
    rw [parseTreeArgsLoop.eq_def]
    exact rfl
  · intro rest opts tp
    constructor <;> (rw [parseTreeArgsLoop.eq_def]; exact rfl)
  · intro arg rest opts tp hsL hne
    have h1 : (arg == "-L") = false := beq_eq_false_iff_ne.mpr hne
    have h2 : (arg == "-a") = false := by
      apply beq_eq_false_iff_ne.mpr
      rintro rfl
      exact absurd hsL (by decide)
    have h3 : (arg == "--all") = false := by
      apply beq_eq_false_iff_ne.mpr
      rintro rfl
      exact absurd hsL (by decide)
    rw [parseTreeArgsLoop.eq_def]
    cases hp : parseIntJS (strDropStart arg 2) <;> simp [h1, h2, h3, hsL, hp]
  · intro arg rest opts tp hnd
    have h1 : (arg == "-L") = false := by
      apply beq_eq_false_iff_ne.mpr
      rintro rfl
      exact absurd hnd (by decide)
    have h2 : (arg == "-a") = false := by
      apply beq_eq_false_iff_ne.mpr
      rintro rfl
      exact absurd hnd (by decide)
    have h3 : (arg == "--all") = false := by
      apply beq_eq_false_iff_ne.mpr
      rintro rfl
      exact absurd hnd (by decide)
    have h4 : strStarts arg "-L" = false := by
      by_cases hsl : strStarts arg "-L" = true
      · exact absurd (strStarts_dashL_dash hsl) (by simp [hnd])
      · simpa using hsl
    rw [parseTreeArgsLoop.eq_def]
    simp [h1, h2, h3, h4, hnd]
  · intro arg rest opts tp hd hsl ha hall
    have h1 : (arg == "-L") = false := by
      apply beq_eq_false_iff_ne.mpr
      rintro rfl
      exact absurd hsl (by decide)
    have h2 : (arg == "-a") = false := beq_eq_false_iff_ne.mpr ha
    have h3 : (arg == "--all") = false := beq_eq_false_iff_ne.mpr hall
    rw [parseTreeArgsLoop.eq_def]
    simp [h1, h2, h3, hsl, hd]

/-- C7 witness: the `-L 2` step applied concretely. -/
theorem parseTreeArgs_characterization_witness :
    parseTreeArgsLoop ["-L", "2", "--noreport"]
        { showHidden := false, excludeGit := true } "." =
      parseTreeArgsLoop ["--noreport"]
        { maxDepth := some 2, showHidden := false, excludeGit := true } "." :=
  parseTreeArgs_characterization.2.1 "2" ["--noreport"]
    { showHidden := false, excludeGit := true } "." 2 rfl

/-- C7 counterexample: `-L2` is a `-`-prefixed token other than `-L`,
`-a` and `--all`, yet it is not ignored — it sets `maxDepth = 2`
(running with no arguments leaves `maxDepth` unset). -/
theorem parseTreeArgs_attached_L_not_ignored :
    (parseTreeArgs ["-L2"]).options.maxDepth = some 2 ∧
    (parseTreeArgs []).options.maxDepth = none ∧
    strStarts "-L2" "-" = true ∧ "-L2" ≠ "-L" ∧ "-L2" ≠ "-a" ∧
    "-L2" ≠ "--all" :=
  ⟨rfl, rfl, by decide, by decide, by decide, by decide⟩

theorem parseTreeArgsLoop_maxDepth_source :
    ∀ (args : List String) (opts : GtreeOptions) (tp : String) (d : Int),
      (parseTreeArgsLoop args opts tp).options.maxDepth = some d →
      opts.maxDepth = some d ∨
        ∃ s ∈ args, parseIntJS s = some d ∨
          parseIntJS (strDropStart s 2) = some d := by
  intro args opts tp
  induction args, opts, tp using parseTreeArgsLoop.induct with
  | case1 opts tp =>
    intro d h
    exact Or.inl (by simpa [parseTreeArgsLoop] using h)
  | case2 arg opts tp harg next rest2 d0 hparse ih =>
    intro d h
    have harg' : arg = "-L" := by simpa using harg
    subst harg'
    rw [parseTreeArgs_characterization.2.1 next rest2 opts tp d0 hparse] at h
    rcases ih d h with h0 | ⟨s, hs, hp⟩
    · simp only [Option.some.injEq] at h0
      exact Or.inr ⟨next, by simp, Or.inl (h0 ▸ hparse)⟩
    · exact Or.inr ⟨s, by simp [hs], hp⟩
  | case3 arg opts tp harg next rest2 hparse ih =>
    intro d h
    have harg' : arg = "-L" := by simpa using harg
    subst harg'
    rw [parseTreeArgs_characterization.2.2.1 next rest2 opts tp hparse] at h
    rcases ih d h with h0 | ⟨s, hs, hp⟩
    · exact Or.inl h0
    · exact Or.inr ⟨s, by simp [List.mem_cons.mp hs], hp⟩
  | case4 arg opts tp harg ih =>
    intro d h
    have harg' : arg = "-L" := by simpa using harg
    subst harg'
    rcases ih d (by simpa [parseTreeArgsLoop] using h) with h0 | ⟨s, hs, _⟩
    · exact Or.inl h0
    · simp at hs
  | case5 arg rest opts tp h1 h2 ih =>
    intro d h
    have hstep : parseTreeArgsLoop (arg :: rest) opts tp =
        parseTreeArgsLoop rest { opts with showHidden := true } tp := by
      rw [parseTreeArgsLoop.eq_def]
      simp [h1, h2]
    rw [hstep] at h
    rcases ih d h with h0 | ⟨s, hs, hp⟩
    · exact Or.inl h0
    · exact Or.inr ⟨s, by simp [hs], hp⟩
  | case6 arg rest opts tp h1 h2 hsl d0 hparse ih =>
    intro d h
    have hstep : parseTreeArgsLoop (arg :: rest) opts tp =
        parseTreeArgsLoop rest { opts with maxDepth := some d0 } tp := by
      rw [parseTreeArgsLoop.eq_def]
      simp [h1, h2, hsl, hparse]
    rw [hstep] at h
    rcases ih d h with h0 | ⟨s, hs, hp⟩
    · simp only [Option.some.injEq] at h0
      exact Or.inr ⟨arg, by simp, Or.inr (h0 ▸ hparse)⟩
    · exact Or.inr ⟨s, by simp [hs], hp⟩
  | case7 arg rest opts tp h1 h2 hsl hparse ih =>
    intro d h
    have hstep : parseTreeArgsLoop (arg :: rest) opts tp =
        parseTreeArgsLoop rest opts tp := by
      rw [parseTreeArgsLoop.eq_def]
      simp [h1, h2, hsl, hparse]
    rw [hstep] at h
    rcases ih d h with h0 | ⟨s, hs, hp⟩
    · exact Or.inl h0
    · exact Or.inr ⟨s, by simp [hs], hp⟩
  | case8 arg rest opts tp h1 h2 h3 h4 ih =>
    intro d h
    have hstep : parseTreeArgsLoop (arg :: rest) opts tp =
        parseTreeArgsLoop rest opts arg := by
      rw [parseTreeArgsLoop.eq_def]
      simp [h1, h2, h3, h4]
    rw [hstep] at h
    rcases ih d h with h0 | ⟨s, hs, hp⟩
    · exact Or.inl h0
    · exact Or.inr ⟨s, by simp [hs], hp⟩
  | case9 arg rest opts tp h1 h2 h3 h4 ih =>
    intro d h
    have hstep : parseTreeArgsLoop (arg :: rest) opts tp =
        parseTreeArgsLoop rest opts tp := by
      rw [parseTreeArgsLoop.eq_def]
      simp [h1, h2, h3, h4]
    rw [hstep] at h
    rcases ih d h with h0 | ⟨s, hs, hp⟩
    · exact Or.inl h0
    · exact Or.inr ⟨s, by simp [hs], hp⟩

/-- C9 (amended): whenever the returned options set `maxDepth`, its
value is the `parseInt` result of one of the tokens (the lookahead of
`-L`, or the suffix of an attached `-L<n>` token); nothing constrains it
to be non-negative. -/
theorem parseTreeArgs_maxDepth_from_tokens (args : List String) (d : Int)
    (h : (parseTreeArgs args).options.maxDepth = some d) :
    ∃ s ∈ args, parseIntJS s = some d ∨
      parseIntJS (strDropStart s 2) = some d := by
  rcases parseTreeArgsLoop_maxDepth_source args
    { showHidden := false, excludeGit := true } "." d h with h0 | h1
  · simp at h0
  · exact h1

/-- C9 witness: the source of `maxDepth = 2` for args `["-L", "2"]`. -/
theorem parseTreeArgs_maxDepth_from_tokens_witness :
    ∃ s ∈ ["-L", "2"], parseIntJS s = some 2 ∨
      parseIntJS (strDropStart s 2) = some 2 :=
  parseTreeArgs_maxDepth_from_tokens ["-L", "2"] 2 rfl

/-- C9 counterexample: `parseInt` accepts signed numbers, so
`["-L", "-5"]` sets `maxDepth` to the negative value `-5`. -/
theorem parseTreeArgs_negative_maxDepth :
    (parseTreeArgs ["-L", "-5"]).options.maxDepth = some (-5) ∧
    (-5 : Int) < 0 :=
  ⟨rfl, by norm_num⟩

end Gtree
